import Mathlib

/-!
Shallow embedding of the core of `knowledge_base_builder_kimi.py`:
the lenient JSON response parser, the reflection-based tool-schema
generator, the document structure extractor with its three retrieval
tools, and the tool-calling conversation loop.

Python strings are modelled as `List Char`; Python `dict`s (which keep
insertion order and overwrite on re-assignment of an existing key) are
modelled as association lists with an insert-or-overwrite operation.
Python exceptions of a function are modelled by an `Option`/`Except`
return type, `none`/`.error` meaning the call raised.
-/

/-- Python strings are modelled as lists of characters. -/
abbrev Str := List Char

/-- Convert a Lean string literal to the `List Char` model. -/
def s2l (s : String) : Str := s.data

/-- Python `str.strip()` default whitespace characters (ASCII subset). -/
def isPyWs (c : Char) : Bool :=
  c = ' ' ∨ c = '\t' ∨ c = '\n' ∨ c = '\r' ∨ c = '\x0b' ∨ c = '\x0c'

/-- Python `s.strip()`: drop leading and trailing whitespace. -/
def strip (s : Str) : Str :=
  ((s.dropWhile isPyWs).reverse.dropWhile isPyWs).reverse

/-- Python `s.startswith(pat)`. -/
def startsWith : Str → Str → Bool
  | _, [] => true
  | [], _ :: _ => false
  | c :: s, p :: pat => c = p ∧ startsWith s pat

/-- Python `s.endswith(pat)`. -/
def endsWith (s pat : Str) : Bool := startsWith s.reverse pat.reverse

/-- Python `s.find(pat)`: index of the first occurrence of `pat` in `s`,
`none` when absent (Python returns -1). -/
def findSub : Str → Str → Option Nat
  | s, pat =>
    if startsWith s pat then some 0
    else
      match s with
      | [] => none
      | _ :: rest => (findSub rest pat).map (· + 1)

/-- Python `s.find(pat, start)`: first occurrence at index `start` or later. -/
def findSubFrom (s pat : Str) (start : Nat) : Option Nat :=
  (findSub (s.drop start) pat).map (· + start)

/-- Python `pat in s` for strings (substring containment). -/
def containsSub (pat s : Str) : Bool := (findSub s pat).isSome

/-- Python `c in s` for a single character. -/
def containsChar (c : Char) (s : Str) : Bool := s.contains c

/-- Python slice `s[a:b]`. -/
def sliceList (s : Str) (a b : Nat) : Str := (s.take b).drop a

/-- The part of `s` after the first occurrence of character `c`
(Python `s.split(c, 1)[1]` when `c in s`). -/
def afterFirstChar (c : Char) (s : Str) : Str :=
  (s.dropWhile (fun x => ¬(x = c))).drop 1

/-- The part of `s` before the last occurrence of character `c`
(Python `s.rsplit(c, 1)[0]` when `c in s`). -/
def beforeLastChar (c : Char) (s : Str) : Str :=
  (afterFirstChar c s.reverse).reverse

/-- Python slice `s[:-n]`. -/
def dropLastN (n : Nat) (s : Str) : Str := s.take (s.length - n)

/-- Python `str.lower()` (ASCII case folding). -/
def toLowerStr (s : Str) : Str := s.map Char.toLower

/-- Python `s.split(c)`. -/
def splitOnChar (c : Char) (s : Str) : List Str :=
  s.splitOn c

/-- Decimal rendering of a natural number, as Python `str`. -/
def natToStr (n : Nat) : Str := (toString n).data

/-- Decimal rendering of an integer, as Python `str`. -/
def intToStr (i : Int) : Str :=
  if i < 0 then '-' :: natToStr i.natAbs else natToStr i.toNat

/-- Association list lookup (Python `d[k]` / `k in d`). -/
def lookupAssoc [DecidableEq κ] : List (κ × α) → κ → Option α
  | [], _ => none
  | (k, v) :: rest, q => if k = q then some v else lookupAssoc rest q

/-- Association list insert with Python `dict` semantics: overwrite in
place when the key is present, append otherwise. -/
def insertAssoc [DecidableEq κ] : List (κ × α) → κ → α → List (κ × α)
  | [], k, v => [(k, v)]
  | (k0, v0) :: rest, k, v =>
    if k0 = k then (k, v) :: rest else (k0, v0) :: insertAssoc rest k v

/-! JSON values and a model of the standard library `json` module.
`loads` is a recursive-descent parser for the JSON fragment this
program exchanges (objects, arrays, strings with simple escapes,
integer numbers, booleans, null); `none` models `json.JSONDecodeError`.
`dumpsJVal` models `json.dumps` with its default separators. -/

/-- Parsed JSON value (Python `json.loads` output). -/
inductive JVal where
  | str (s : Str)
  | num (n : Int)
  | bool (b : Bool)
  | null
  | arr (xs : List JVal)
  | obj (fields : List (Str × JVal))

/-- JSON whitespace accepted between tokens. -/
def jsonWs (c : Char) : Bool := c = ' ' ∨ c = '\t' ∨ c = '\n' ∨ c = '\r'

/-- Skip JSON whitespace. -/
def skipWs (s : Str) : Str := s.dropWhile jsonWs

/-- Parse the body of a JSON string after the opening quote, handling
the simple escape sequences. -/
def parseStringBody : Str → Option (Str × Str)
  | [] => none
  | '"' :: rest => some ([], rest)
  | '\\' :: e :: rest => do
    let c ← match e with
      | '"' => some '"'
      | '\\' => some '\\'
      | '/' => some '/'
      | 'n' => some '\n'
      | 't' => some '\t'
      | 'r' => some '\r'
      | 'b' => some '\x08'
      | 'f' => some '\x0c'
      | _ => none
    let (tail, rest2) ← parseStringBody rest
    some (c :: tail, rest2)
  | c :: rest => do
    let (tail, rest2) ← parseStringBody rest
    some (c :: tail, rest2)

/-- Digits to a natural number. -/
def digitsToNat (ds : List Char) : Nat :=
  ds.foldl (fun a c => a * 10 + (c.toNat - 48)) 0

/-- Parse a JSON integer token (optional minus sign, then digits). -/
def parseIntTok : Str → Option (Int × Str)
  | '-' :: rest =>
    let ds := rest.takeWhile Char.isDigit
    if ds = [] then none
    else some (-(digitsToNat ds : Int), rest.drop ds.length)
  | s =>
    let ds := s.takeWhile Char.isDigit
    if ds = [] then none
    else some ((digitsToNat ds : Int), s.drop ds.length)

mutual

/-- Parse one JSON value; fuel bounds the recursion depth. -/
def parseVal : Nat → Str → Option (JVal × Str)
  | 0, _ => none
  | fuel + 1, s =>
    match skipWs s with
    | '\x7b' :: rest => parseObjRest fuel (skipWs rest) [] true
    | '[' :: rest => parseArrRest fuel (skipWs rest) [] true
    | '"' :: rest => (parseStringBody rest).map (fun p => (.str p.1, p.2))
    | 't' :: 'r' :: 'u' :: 'e' :: rest => some (.bool true, rest)
    | 'f' :: 'a' :: 'l' :: 's' :: 'e' :: rest => some (.bool false, rest)
    | 'n' :: 'u' :: 'l' :: 'l' :: rest => some (.null, rest)
    | s2 => (parseIntTok s2).map (fun p => (.num p.1, p.2))

/-- Parse the members of a JSON object after the opening brace; the
closing brace is accepted directly only before the first member. -/
def parseObjRest : Nat → Str → List (Str × JVal) → Bool → Option (JVal × Str)
  | 0, _, _, _ => none
  | fuel + 1, s, acc, allowEnd =>
    match s with
    | '\x7d' :: rest => if allowEnd then some (.obj acc, rest) else none
    | '"' :: rest => do
      let (key, r1) ← parseStringBody rest
      match skipWs r1 with
      | ':' :: r2 => do
        let (v, r3) ← parseVal fuel (skipWs r2)
        match skipWs r3 with
        | ',' :: r4 => parseObjRest fuel (skipWs r4) (acc ++ [(key, v)]) false
        | '\x7d' :: r4 => some (.obj (acc ++ [(key, v)]), r4)
        | _ => none
      | _ => none
    | _ => none

/-- Parse the items of a JSON array after the opening bracket. -/
def parseArrRest : Nat → Str → List JVal → Bool → Option (JVal × Str)
  | 0, _, _, _ => none
  | fuel + 1, s, acc, allowEnd =>
    match s with
    | ']' :: rest => if allowEnd then some (.arr acc, rest) else none
    | s2 => do
      let (v, r1) ← parseVal fuel (skipWs s2)
      match skipWs r1 with
      | ',' :: r2 => parseArrRest fuel (skipWs r2) (acc ++ [v]) false
      | ']' :: r2 => some (.arr (acc ++ [v]), r2)
      | _ => none

end

/-- Model of Python `json.loads`: parse a complete JSON document,
allowing only trailing whitespace; `none` models `JSONDecodeError`. -/
def loads (s : Str) : Option JVal :=
  match parseVal (s.length + 1) s with
  | some (v, rest) => if skipWs rest = [] then some v else none
  | none => none

/-- Escape one character as in `json.dumps` (default `ensure_ascii`
only matters beyond ASCII, which this program does not emit). -/
def jsonEscapeChar (c : Char) : Str :=
  if c = '"' then ['\\', '"']
  else if c = '\\' then ['\\', '\\']
  else if c = '\n' then ['\\', 'n']
  else if c = '\t' then ['\\', 't']
  else if c = '\r' then ['\\', 'r']
  else [c]

/-- Escape a string body as in `json.dumps`. -/
def jsonEscape (s : Str) : Str := (s.map jsonEscapeChar).flatten

mutual

/-- Model of Python `json.dumps` with default separators. -/
def dumpsJVal : JVal → Str
  | .str s => '"' :: jsonEscape s ++ ['"']
  | .num n => intToStr n
  | .bool true => s2l "true"
  | .bool false => s2l "false"
  | .null => s2l "null"
  | .arr xs => '[' :: dumpsList xs ++ [']']
  | .obj fs => '\x7b' :: dumpsFields fs ++ ['\x7d']

/-- Render array items, comma separated. -/
def dumpsList : List JVal → Str
  | [] => []
  | [x] => dumpsJVal x
  | x :: xs => dumpsJVal x ++ s2l ", " ++ dumpsList xs

/-- Render object members, comma separated. -/
def dumpsFields : List (Str × JVal) → Str
  | [] => []
  | [(k, v)] => '"' :: jsonEscape k ++ s2l "\": " ++ dumpsJVal v
  | (k, v) :: fs => '"' :: jsonEscape k ++ s2l "\": " ++ dumpsJVal v ++ s2l ", " ++ dumpsFields fs

end

/-! The lenient structured-output parser `parse_json_response`
(source lines 142-195). A `none` result models a raised
`json.JSONDecodeError`. -/

/-- Strip markdown code fences exactly as the source does: a
` ```json ` fence anywhere wins; otherwise a generic ` ``` ` fence at
the start is stripped (first line, and the last line when it closes). -/
def stripFences (cleaned : Str) : Str :=
  if containsSub (s2l "```json") cleaned then
    match findSub cleaned (s2l "```json") with
    | some i =>
      let start := i + 7
      match findSubFrom cleaned (s2l "```") start with
      | some e => strip (sliceList cleaned start e)
      | none => strip (cleaned.drop start)
    | none => cleaned
  else if startsWith cleaned (s2l "```") then
    let c1 := if containsChar '\n' cleaned then afterFirstChar '\n' cleaned
              else cleaned.drop 3
    let c2 := if endsWith c1 (s2l "```") then
                (if containsChar '\n' c1 then beforeLastChar '\n' c1
                 else dropLastN 3 c1)
              else c1
    strip c2
  else cleaned

/-- Parse JSON from an AI response, handling markdown code blocks and
conversational preamble; `none` models a raised `JSONDecodeError`. -/
def parse_json_response (content : Str) : Option JVal :=
  if content = [] then none
  else
    let cleaned := stripFences (strip content)
    match cleaned with
    | [] => loads []
    | c :: _ =>
      if c = '\x7b' ∨ c = '[' then loads cleaned
      else
        match cleaned.findIdx? (fun x => x = '\x7b' ∨ x = '[') with
        | some j => loads (cleaned.drop j)
        | none => none

/-! The reflection-based tool-schema generator (source lines 57-139 and
198-256). A Python type annotation is modelled by `Ann`; a callable by
`PyFunc` (its name, its docstring, and its parameters in declaration
order, each with its annotation and whether it carries a default). -/

/-- Model of a Python type annotation as seen through
`inspect.signature`, `get_origin` and `get_args`. `noneT` is
`type(None)`; `empty` is `inspect.Parameter.empty`; `union` covers
`Union[...]`/`Optional[...]`; `listOf` covers `List[T]`; `other` is any
unrecognized construct. -/
inductive Ann where
  | empty
  | int
  | float
  | bool
  | str
  | dict
  | list
  | listOf (t : Ann)
  | union (ts : List Ann)
  | noneT
  | other

/-- Test for `type(None)` among union members. -/
def isNoneT : Ann → Bool
  | .noneT => true
  | _ => false

/-- Check if a type annotation is Optional (a Union with None). -/
def _is_optional : Ann → Bool
  | .union ts => ts.any isNoneT
  | _ => false

/-- JSON schema type tags produced by the generator. -/
inductive SchemaType where
  | string
  | integer
  | number
  | boolean
  | object
  | array (items : Option SchemaType)

/-- Convert a Python type annotation to an OpenAI parameter schema
type tag, recursing into list element types and unwrapping unions by
taking the first non-None member; anything unrecognized becomes string. -/
def _get_type_schema : Ann → SchemaType
  | .empty => .string
  | .int => .integer
  | .float => .number
  | .bool => .boolean
  | .str => .string
  | .dict => .object
  | .list => .array none
  | .listOf t => .array (some (_get_type_schema t))
  | .union ts =>
    match h : ts.filter (fun t => ¬isNoneT t) with
    | [] => .string
    | t :: _ => _get_type_schema t
  | .noneT => .string
  | .other => .string
termination_by a => sizeOf a
decreasing_by
  · simp [Ann.listOf.sizeOf_spec]
  · have ht : t ∈ ts :=
      List.mem_of_mem_filter (h ▸ List.mem_cons_self t _)
    have hlt := List.sizeOf_lt_of_mem ht
    simp [Ann.union.sizeOf_spec]
    omega

/-- One parameter of a Python callable: its name, annotation, and
whether it has a default value. -/
structure Param where
  name : Str
  ann : Ann
  hasDefault : Bool

/-- A Python callable as the generator sees it: bare name, docstring,
parameters in declaration order. -/
structure PyFunc where
  name : Str
  doc : Str
  params : List Param

/-- One step of the Args-section docstring scan: state is
(in_args_section, collected name-to-description pairs). -/
def argsSectionStep (st : Bool × List (Str × Str)) (rawLine : Str) :
    Bool × List (Str × Str) :=
  let line := strip rawLine
  if startsWith line (s2l "Args:") then (true, st.2)
  else if st.1 ∧ containsChar ':' line then
    let pname := strip (line.takeWhile (fun c => ¬(c = ':')))
    let pdesc := strip (afterFirstChar ':' line)
    (st.1, insertAssoc st.2 pname pdesc)
  else
    match line with
    | c :: _ => if st.1 ∧ ¬isPyWs c then (false, st.2) else st
    | [] => st

/-- Parse the docstring Args section into parameter descriptions.
The description of a parameter is everything after the first colon of
its line (the source splits on every colon and rejoins the tail, which
is the same string). -/
def parseArgsSection (lines : List Str) : List (Str × Str) :=
  (lines.foldl argsSectionStep (false, [])).2

/-- Build the function-level description: all lines before the first
line starting with Args: or Returns:, non-empty ones joined by spaces,
falling back to the bare function name. -/
def buildDescr (lines : List Str) (fname : Str) : Str :=
  let pre := lines.takeWhile
    (fun l => ¬(startsWith l (s2l "Args:") ∨ startsWith l (s2l "Returns:")))
  let d := List.intercalate (s2l " ") (pre.filter (fun l => ¬(l = [])))
  if d = [] then fname else d

/-- Schema of one parameter: type tag and human-readable description. -/
structure ParamSchema where
  ty : SchemaType
  descr : Str

/-- The generated tool schema: function name, description, properties
mapping in insertion order, and the required-parameter name list. -/
structure FuncSchema where
  name : Str
  descr : Str
  properties : List (Str × ParamSchema)
  required : List Str

/-- One step of the parameter loop of the schema generator. -/
def schemaStep (descrs : List (Str × Str))
    (acc : List (Str × ParamSchema) × List Str) (p : Param) :
    List (Str × ParamSchema) × List Str :=
  if p.name = s2l "self" then acc
  else
    (insertAssoc acc.1 p.name
      { ty := _get_type_schema p.ann
        descr := (lookupAssoc descrs p.name).getD
          (s2l "The " ++ p.name ++ s2l " parameter") },
     if ¬p.hasDefault ∧ ¬_is_optional p.ann then acc.2 ++ [p.name] else acc.2)

/-- Convert a Python function with type hints and docstring to an
OpenAI tool schema. -/
def function_to_tool_schema (f : PyFunc) : FuncSchema :=
  let lines := splitOnChar '\n' f.doc
  let descrs := parseArgsSection lines
  let pr := f.params.foldl (schemaStep descrs) ([], [])
  { name := f.name
    descr := buildDescr lines f.name
    properties := pr.1
    required := pr.2 }

/-! Document structure extraction (source lines 352-461) and the three
retrieval tools (source lines 468-570). A document is a list of blocks
in document order; `doc.paragraphs` and `doc.tables` of python-docx
are its paragraph projection and table projection, each order
preserving. Document metadata is an immutable snapshot not touched by
any claim and is omitted from the extraction result. -/

/-- One top-level block of a Word document, in document order. -/
inductive Block where
  | para (style text : Str)
  | table (rows : List (List Str))

/-- The paragraph stream `doc.paragraphs`: (style name, text) pairs. -/
def paraBlocks (blocks : List Block) : List (Str × Str) :=
  blocks.filterMap (fun b =>
    match b with
    | .para style text => some (style, text)
    | .table _ => none)

/-- The table stream `doc.tables`: each table is its rows of cells. -/
def tableBlocks (blocks : List Block) : List (List (List Str)) :=
  blocks.filterMap (fun b =>
    match b with
    | .para _ _ => none
    | .table rows => some rows)

/-- A stored section: heading text, level, accumulated content. -/
structure DocSection where
  heading : Str
  level : Nat
  content : Str
deriving DecidableEq

/-- One entry of the structure list: index, heading text, level. -/
structure HeadingEntry where
  index : Int
  heading : Str
  level : Nat
deriving DecidableEq

/-- The in-progress section while scanning paragraphs; its content is
the list of body paragraph texts collected so far. -/
structure CurrentSection where
  index : Int
  heading : Str
  level : Nat
  content : List Str
deriving DecidableEq

/-- Scanner state: structure list, sections mapping, current section,
and the running section index counter. -/
structure PState where
  structure_ : List HeadingEntry
  sections : List (Int × DocSection)
  current : CurrentSection
  section_index : Int
deriving DecidableEq

/-- Initial scanner state (the implicit index-0 Introduction section). -/
def initPState : PState :=
  { structure_ := []
    sections := []
    current := { index := 0, heading := s2l "Introduction", level := 0, content := [] }
    section_index := 0 }

/-- Close the current section: store it under its index when it has
accumulated content, joined by newlines; drop it otherwise. -/
def closeCurrent (st : PState) : List (Int × DocSection) :=
  if st.current.content = [] then st.sections
  else
    insertAssoc st.sections st.current.index
      { heading := st.current.heading
        level := st.current.level
        content := List.intercalate (s2l "\n") st.current.content }

/-- Heading level from the style name, by substring containment with
levels 1-4 checked in order and anything else heading-like mapping to 5. -/
def headingLevel (style : Str) : Nat :=
  if containsSub (s2l "Heading 1") style then 1
  else if containsSub (s2l "Heading 2") style then 2
  else if containsSub (s2l "Heading 3") style then 3
  else if containsSub (s2l "Heading 4") style then 4
  else 5

/-- Process one paragraph: skip blank text; a heading paragraph closes
the current section and opens a new one with the next index; any other
paragraph appends its stripped text to the current section. -/
def paraStep (st : PState) (p : Str × Str) : PState :=
  if strip p.2 = [] then st
  else
    let style := p.1
    let text := strip p.2
    if containsSub (s2l "Heading") style then
      let sections2 := closeCurrent st
      let idx := st.section_index + 1
      let level := headingLevel style
      { structure_ := st.structure_ ++ [{ index := idx, heading := text, level := level }]
        sections := sections2
        current := { index := idx, heading := text, level := level, content := [] }
        section_index := idx }
    else
      { st with current := { st.current with content := st.current.content ++ [text] } }

/-- Scan all paragraphs and close the last open section. -/
def processParagraphs (paras : List (Str × Str)) : PState :=
  let st := paras.foldl paraStep initPState
  { st with sections := closeCurrent st }

/-- Render one table as the text block the source builds:
[TABLE], one line per row with cells joined by pipes, [/TABLE]. -/
def tableText (rows : List (List Str)) : Str :=
  List.intercalate (s2l "\n")
    (s2l "[TABLE]" :: rows.map (fun r => List.intercalate (s2l " | ") r)
      ++ [s2l "[/TABLE]"])

/-- Append one table to the section stored under `idx` (the final
section index), when that index has an entry; otherwise drop it. -/
def appendOneTable (sections : List (Int × DocSection)) (idx : Int)
    (rows : List (List Str)) : List (Int × DocSection) :=
  match lookupAssoc sections idx with
  | some s =>
    insertAssoc sections idx
      { s with content := s.content ++ s2l "\n\n" ++ tableText rows }
  | none => sections

/-- Append every table, in table order, to the section under `idx`. -/
def appendTables (sections : List (Int × DocSection)) (idx : Int)
    (tables : List (List (List Str))) : List (Int × DocSection) :=
  tables.foldl (fun secs rows => appendOneTable secs idx rows) sections

/-- Result of document structure extraction. -/
structure ExtractResult where
  structure_ : List HeadingEntry
  sections : List (Int × DocSection)
  full_content : Str
deriving DecidableEq

/-- Extract document structure: scan paragraphs into indexed sections,
then append every table to the section with the final index, and build
the full content from all non-blank paragraphs. -/
def extract_document_structure (blocks : List Block) : ExtractResult :=
  let st := processParagraphs (paraBlocks blocks)
  { structure_ := st.structure_
    sections := appendTables st.sections st.section_index (tableBlocks blocks)
    full_content :=
      List.intercalate (s2l "\n\n")
        (((paraBlocks blocks).filter (fun p => ¬(strip p.2 = []))).map (fun p => p.2)) }

/-- Data held by the process-wide current-document slot: the fields of
the extraction result that the retrieval tools read. -/
structure DocData where
  structure_ : List HeadingEntry
  sections : List (Int × DocSection)
deriving DecidableEq

/-- View of an extraction result as the loaded document data. -/
def ExtractResult.toDocData (r : ExtractResult) : DocData :=
  { structure_ := r.structure_, sections := r.sections }

/-- Retrieve a specific section from the document by its index. The
argument is the process-wide current-document slot (`none` when no
document is loaded). This function returns on every path. -/
def get_section_by_index (docData : Option DocData) (section_index : Int) : Str :=
  match docData with
  | none => s2l "Error: No document is currently loaded"
  | some d =>
    match lookupAssoc d.sections section_index with
    | none =>
      let available :=
        List.intercalate (s2l ", ")
          (((d.sections.map Prod.fst).insertionSort (fun a b => a ≤ b)).map intToStr)
      s2l "Error: Section " ++ intToStr section_index
        ++ s2l " not found. Available sections: " ++ available
    | some s => s2l "# " ++ s.heading ++ s2l "\n\n" ++ s.content

/-- Search for and retrieve a section by heading name or keyword, by
case-insensitive substring match over the structure list. The result
is `none` when the call raises: with exactly one match the source
reads `sections[idx]` directly, a `KeyError` when the matched heading
stored no content. -/
def get_section_by_heading (docData : Option DocData) (heading_keyword : Str) :
    Option Str :=
  match docData with
  | none => some (s2l "Error: No document is currently loaded")
  | some d =>
    let hits :=
      d.structure_.filter
        (fun it => containsSub (toLowerStr heading_keyword) (toLowerStr it.heading))
    match hits with
    | [] =>
      some (s2l "Error: No sections found matching \x27" ++ heading_keyword ++ s2l "\x27")
    | [m] =>
      match lookupAssoc d.sections m.index with
      | some s => some (s2l "# " ++ s.heading ++ s2l "\n\n" ++ s.content)
      | none => none
    | _ =>
      let match_list :=
        List.intercalate (s2l "\n")
          (hits.map (fun m => s2l "  " ++ intToStr m.index ++ s2l ". " ++ m.heading))
      some (s2l "Multiple sections found matching \x27" ++ heading_keyword
        ++ s2l "\x27:\n" ++ match_list
        ++ s2l "\n\nUse get_section_by_index() to retrieve a specific one.")

/-- Retrieve multiple sections at once by their indices; missing
indices are annotated inline, and all parts are joined by separators. -/
def get_multiple_sections (docData : Option DocData) (section_indices : List Int) :
    Str :=
  match docData with
  | none => s2l "Error: No document is currently loaded"
  | some d =>
    let result := section_indices.map (fun idx =>
      match lookupAssoc d.sections idx with
      | some s => s2l "# " ++ s.heading ++ s2l "\n\n" ++ s.content ++ s2l "\n"
      | none => s2l "[Section " ++ intToStr idx ++ s2l " not found]\n")
    List.intercalate (s2l "\n---\n\n") result

/-! The tool-calling conversation loop `run_with_tools` (source lines
259-345). The model backend is an opaque synchronous call; it is
modelled as a stub function from the current message list to the
response choice. The `arguments` field of a requested tool call is the
raw string the transport delivers, decoded with `json.loads` inside
the loop. The loop is instrumented with the number of completed
round-trips (stub invocations) so the termination bound is statable. -/

/-- One requested tool invocation, as delivered by the transport. -/
structure ToolCall where
  id : Str
  name : Str
  args : Str
deriving DecidableEq

/-- The relevant part of one response choice: finish reason, message
content (possibly absent), and requested tool calls. -/
structure Choice where
  finish_reason : Str
  content : Option Str
  tool_calls : List ToolCall
deriving DecidableEq

/-- One conversation message. The assistant message stores the choice
message appended verbatim by the loop. -/
inductive Msg where
  | user (content : Str)
  | assistant (content : Option Str) (tool_calls : List ToolCall)
  | tool (tool_call_id : Str) (name : Str) (content : Str)
deriving DecidableEq

/-- The id of a tool-result message, `none` for any other role. -/
def msgToolId : Msg → Option Str
  | .tool tid _ _ => some tid
  | _ => none

/-- A Python value returned by a registered tool: a string or a dict. -/
inductive PyRet where
  | str (s : Str)
  | dict (fields : List (Str × JVal))

/-- A registered host callable: it receives the decoded arguments and
either returns a value or raises, the exception carrying its message
and the full traceback text. -/
def ToolImpl : Type := JVal → Except (Str × Str) PyRet

/-- Message content for a tool result: `json.dumps` for a dict result,
`str(...)` for anything else. -/
def pyRetContent : PyRet → Str
  | .str s => s
  | .dict fs => dumpsJVal (.obj fs)

/-- The error payload built when a dispatched tool raises: message and
a 200-character traceback excerpt. -/
def execErrorMsg (name msg tb : Str) : Str :=
  s2l "Error executing " ++ name ++ s2l ": " ++ msg ++ s2l "\n" ++ tb.take 200

/-- Dispatch one requested tool call, producing the tool-result message
the loop appends. The arguments string is decoded first, outside any
handler, so an undecodable arguments string raises out of the loop
(`Except.error ()`); a missing function name yields a structured
not-found payload; a raising tool yields a structured error payload. -/
def dispatchOne (tool_map : List (Str × ToolImpl)) (tc : ToolCall) :
    Except Unit Msg :=
  match loads tc.args with
  | none => .error ()
  | some argsVal =>
    match lookupAssoc tool_map tc.name with
    | some impl =>
      match impl argsVal with
      | .ok ret => .ok (.tool tc.id tc.name (pyRetContent ret))
      | .error e =>
        .ok (.tool tc.id tc.name
          (dumpsJVal (.obj [(s2l "error", .str (execErrorMsg tc.name e.1 e.2))])))
    | none =>
      .ok (.tool tc.id tc.name
        (dumpsJVal (.obj
          [(s2l "error", .str (s2l "Function " ++ tc.name ++ s2l " not found"))])))

/-- Dispatch the requested tool calls in request order, collecting the
tool-result messages to append; the first undecodable arguments string
aborts the whole round with the raised exception. -/
def processToolCalls (tool_map : List (Str × ToolImpl)) :
    List ToolCall → Except Unit (List Msg)
  | [] => .ok []
  | tc :: rest =>
    match dispatchOne tool_map tc with
    | .error e => .error e
    | .ok m => (processToolCalls tool_map rest).map (fun ms => m :: ms)

/-- The value `run_with_tools` hands back to its caller: a parsed JSON
value, a string, or Python None. -/
inductive PyValue where
  | jval (v : JVal)
  | str (s : Str)
  | pynone

/-- Result of the stop branch: when the caller requested non-string
decoding and the content is truthy, try the lenient parser and fall
back to the raw text; otherwise return the content as is. -/
def stopResult (retIsStr : Bool) (content : Option Str) : PyValue :=
  match content with
  | some s =>
    if ¬retIsStr ∧ ¬(s = []) then
      match parse_json_response s with
      | some v => .jval v
      | none => .str s
    else .str s
  | none => .pynone

/-- After-loop fallback: the last choice content when truthy, else the
empty string. -/
def contentOrEmpty : Option Str → Str
  | some s => s
  | none => []

/-- The conversation loop, with fuel equal to the remaining allowed
iterations; `last` carries the previous round choice for the
after-loop fallback. Returns the caller-visible result (or the raised
exception) together with the number of round-trips performed. -/
def runLoop (stub : List Msg → Choice) (tool_map : List (Str × ToolImpl))
    (retIsStr : Bool) :
    Nat → List Msg → Option Choice → (Except Unit PyValue) × Nat
  | 0, _, last =>
    (.ok (.str (contentOrEmpty (last.bind (fun c => c.content)))), 0)
  | fuel + 1, messages, _ =>
    let choice := stub messages
    if choice.finish_reason = s2l "stop" then
      (.ok (stopResult retIsStr choice.content), 1)
    else if choice.finish_reason = s2l "tool_calls" ∧ ¬(choice.tool_calls = []) then
      match processToolCalls tool_map choice.tool_calls with
      | .error e => (.error e, 1)
      | .ok toolMsgs =>
        let r := runLoop stub tool_map retIsStr fuel
          (messages ++ .assistant choice.content choice.tool_calls :: toolMsgs)
          (some choice)
        (r.1, r.2 + 1)
    else
      (.ok (.str (contentOrEmpty choice.content)), 1)

/-- Run a chat completion with optional function calling support: seed
the conversation with the prompt and loop for at most 20 iterations. -/
def run_with_tools (stub : List Msg → Choice) (prompt : Str)
    (tool_map : List (Str × ToolImpl)) (retIsStr : Bool) :
    (Except Unit PyValue) × Nat :=
  runLoop stub tool_map retIsStr 20 [.user prompt] none

/-! Derived definitions used by the statements below. -/

/-- The sequence 1, 2, ..., n as integers: the expected heading index
sequence for a document with n headings. -/
def natRangeIdx (n : Nat) : List Int := (List.range' 1 n).map Int.ofNat

/-- The text appended to the final section by the table pass: for each
table, in order, a blank-line separator and its rendered text. -/
def tablesSuffix (tables : List (List (List Str))) : Str :=
  (tables.map (fun t => s2l "\n\n" ++ tableText t)).flatten

/-- Test for the skipped implicit receiver parameter. -/
def isSelf (p : Param) : Bool := p.name = s2l "self"

/-- A parameter is required iff it has no default value and its
annotation is not Optional. -/
def isRequiredParam (p : Param) : Bool := !p.hasDefault && !_is_optional p.ann

/-- Reference accumulation of section bodies: the list of
(section index, accumulated body texts) pairs for every section the
scan opens, in document order. The running index starts at 0 for the
implicit pre-heading section and increases by one at every non-blank
heading paragraph; a non-blank, non-heading paragraph contributes its
stripped text to the body of the current section. An entry is emitted
for every section, also when its accumulated body is empty, so this
list records which headings accumulated no body content at all. -/
def sectionBodiesAux (i : Int) (acc : List Str) : List (Str × Str) → List (Int × List Str)
  | [] => [(i, acc)]
  | p :: rest =>
    if strip p.2 = [] then sectionBodiesAux i acc rest
    else if containsSub (s2l "Heading") p.1 then
      (i, acc) :: sectionBodiesAux (i + 1) [] rest
    else sectionBodiesAux i (acc ++ [strip p.2]) rest

/-- Reference accumulation for a whole paragraph stream, from the
initial state of the scan. -/
def sectionBodies (paras : List (Str × Str)) : List (Int × List Str) :=
  sectionBodiesAux 0 [] paras

/-- Invariant of the paragraph scan state: the index counter equals the
number of headings seen, the structure list carries exactly the indices
1..n in order, the current section is the last opened one (or the
initial index-0 one), every stored section sits under index 0 or a
heading index and has non-empty content, and every collected body
paragraph text is non-empty. -/
def PInv (st : PState) : Prop :=
  st.section_index = Int.ofNat st.structure_.length
  ∧ st.structure_.map HeadingEntry.index = natRangeIdx st.structure_.length
  ∧ st.current.index = st.section_index
  ∧ (st.current.index = 0 ∨ st.current.index ∈ st.structure_.map HeadingEntry.index)
  ∧ (∀ e ∈ st.sections,
      (e.1 = 0 ∨ e.1 ∈ st.structure_.map HeadingEntry.index) ∧ ¬(e.2.content = []))
  ∧ (∀ t ∈ st.current.content, ¬(t = []))

/-! Association list lemmas. -/

/-- Looking up the freshly inserted key finds the inserted value. -/
theorem lookupAssoc_insertAssoc_self [DecidableEq κ] (l : List (κ × α)) (k : κ) (v : α) :
    lookupAssoc (insertAssoc l k v) k = some v := by
  induction l with
  | nil => simp [insertAssoc, lookupAssoc]
  | cons hd tl ih =>
    obtain ⟨k0, v0⟩ := hd
    by_cases h : k0 = k
    · simp [insertAssoc, lookupAssoc, h]
    · simp [insertAssoc, lookupAssoc, h, ih]

/-- Inserting under one key does not change lookups under another. -/
theorem lookupAssoc_insertAssoc_ne [DecidableEq κ] (l : List (κ × α)) (k k2 : κ) (v : α)
    (hne : ¬(k2 = k)) :
    lookupAssoc (insertAssoc l k v) k2 = lookupAssoc l k2 := by
  have hne2 : ¬(k = k2) := fun he => hne he.symm
  induction l with
  | nil => simp [insertAssoc, lookupAssoc, hne2]
  | cons hd tl ih =>
    obtain ⟨k0, v0⟩ := hd
    by_cases h : k0 = k
    · subst h
      simp [insertAssoc, lookupAssoc, hne2]
    · simp [insertAssoc, lookupAssoc, h, ih]

/-- Inserting under a key already present keeps the key list unchanged. -/
theorem insertAssoc_keys_of_mem [DecidableEq κ] (l : List (κ × α)) (k : κ) (v : α)
    (h : k ∈ l.map Prod.fst) :
    (insertAssoc l k v).map Prod.fst = l.map Prod.fst := by
  induction l with
  | nil => simp at h
  | cons hd tl ih =>
    obtain ⟨k0, v0⟩ := hd
    by_cases hk : k0 = k
    · simp [insertAssoc, hk]
    · have : k ∈ tl.map Prod.fst := by
        simp at h
        rcases h with h | h
        · exact absurd h.symm hk
        · simpa using h
      simp [insertAssoc, hk, ih this]

/-- Inserting under a fresh key appends the new pair at the end. -/
theorem insertAssoc_append [DecidableEq κ] (l : List (κ × α)) (k : κ) (v : α)
    (h : ¬(k ∈ l.map Prod.fst)) :
    insertAssoc l k v = l ++ [(k, v)] := by
  induction l with
  | nil => simp [insertAssoc]
  | cons hd tl ih =>
    obtain ⟨k0, v0⟩ := hd
    have hk : ¬(k0 = k) := by
      intro he
      exact h (by simp [he])
    have htl : ¬(k ∈ tl.map Prod.fst) := by
      intro hm
      exact h (by simp [hm])
    simp [insertAssoc, hk, ih htl]

/-- A successful lookup exhibits a member of the association list. -/
theorem lookupAssoc_mem [DecidableEq κ] (l : List (κ × α)) (k : κ) (v : α)
    (h : lookupAssoc l k = some v) : (k, v) ∈ l := by
  induction l with
  | nil => simp [lookupAssoc] at h
  | cons hd tl ih =>
    obtain ⟨k0, v0⟩ := hd
    by_cases hk : k0 = k
    · subst hk
      simp [lookupAssoc] at h
      simp [h]
    · simp [lookupAssoc, hk] at h
      exact List.mem_cons_of_mem _ (ih h)

/-- Every member of an insertion result is the inserted pair or an
original member. -/
theorem mem_insertAssoc [DecidableEq κ] (l : List (κ × α)) (k : κ) (v : α) (e : κ × α)
    (h : e ∈ insertAssoc l k v) : e = (k, v) ∨ e ∈ l := by
  induction l with
  | nil => simpa [insertAssoc] using h
  | cons hd tl ih =>
    obtain ⟨k0, v0⟩ := hd
    by_cases hk : k0 = k
    · simp [insertAssoc, hk] at h
      rcases h with h | h
      · exact Or.inl (by simp [h])
      · exact Or.inr (List.mem_cons_of_mem _ h)
    · simp [insertAssoc, hk] at h
      rcases h with h | h
      · exact Or.inr (by simp [h])
      · rcases ih h with h2 | h2
        · exact Or.inl h2
        · exact Or.inr (List.mem_cons_of_mem _ h2)

/-! Table pass lemmas. -/

/-- Appending one table never changes the key list. -/
theorem appendOneTable_keys (sections : List (Int × DocSection)) (idx : Int)
    (rows : List (List Str)) :
    (appendOneTable sections idx rows).map Prod.fst = sections.map Prod.fst := by
  unfold appendOneTable
  cases h : lookupAssoc sections idx with
  | none => rfl
  | some s =>
    have hm : idx ∈ sections.map Prod.fst := by
      have := lookupAssoc_mem sections idx s h
      exact List.mem_map_of_mem Prod.fst this
    simp [insertAssoc_keys_of_mem _ _ _ hm]

/-- The table pass never changes the key list: tables are never given
their own index. -/
theorem appendTables_keys (sections : List (Int × DocSection)) (idx : Int)
    (tables : List (List (List Str))) :
    (appendTables sections idx tables).map Prod.fst = sections.map Prod.fst := by
  induction tables generalizing sections with
  | nil => rfl
  | cons t ts ih =>
    calc (appendTables (appendOneTable sections idx t) idx ts).map Prod.fst
        = (appendOneTable sections idx t).map Prod.fst := ih _
      _ = sections.map Prod.fst := appendOneTable_keys _ _ _

/-- Appending one table changes no section other than the target. -/
theorem appendOneTable_lookup_ne (sections : List (Int × DocSection)) (idx k : Int)
    (rows : List (List Str)) (hne : ¬(k = idx)) :
    lookupAssoc (appendOneTable sections idx rows) k = lookupAssoc sections k := by
  unfold appendOneTable
  cases h : lookupAssoc sections idx with
  | none => rfl
  | some s => simp [lookupAssoc_insertAssoc_ne _ _ _ _ hne]

/-- Appending one table extends the target section content when the
target key is stored, and does nothing otherwise. -/
theorem appendOneTable_lookup_self (sections : List (Int × DocSection)) (idx : Int)
    (rows : List (List Str)) :
    lookupAssoc (appendOneTable sections idx rows) idx
      = (lookupAssoc sections idx).map
          (fun s => { s with content := s.content ++ (s2l "\n\n" ++ tableText rows) }) := by
  unfold appendOneTable
  cases h : lookupAssoc sections idx with
  | none => simp [h]
  | some s => simp [h, lookupAssoc_insertAssoc_self]

/-- The table pass changes no section other than the final one. -/
theorem appendTables_lookup_ne (sections : List (Int × DocSection)) (idx k : Int)
    (tables : List (List (List Str))) (hne : ¬(k = idx)) :
    lookupAssoc (appendTables sections idx tables) k = lookupAssoc sections k := by
  induction tables generalizing sections with
  | nil => rfl
  | cons t ts ih =>
    calc lookupAssoc (appendTables (appendOneTable sections idx t) idx ts) k
        = lookupAssoc (appendOneTable sections idx t) k := ih _
      _ = lookupAssoc sections k := appendOneTable_lookup_ne _ _ _ _ hne

/-- The table pass appends exactly the rendered tables, in order, to
the stored content of the final section (when it is stored at all). -/
theorem appendTables_lookup_self (sections : List (Int × DocSection)) (idx : Int)
    (tables : List (List (List Str))) :
    lookupAssoc (appendTables sections idx tables) idx
      = (lookupAssoc sections idx).map
          (fun s => { s with content := s.content ++ tablesSuffix tables }) := by
  induction tables generalizing sections with
  | nil =>
    cases h : lookupAssoc sections idx with
    | none => simp [appendTables, h]
    | some s => simp [appendTables, h, tablesSuffix]
  | cons t ts ih =>
    have step := appendOneTable_lookup_self sections idx t
    calc lookupAssoc (appendTables (appendOneTable sections idx t) idx ts) idx
        = (lookupAssoc (appendOneTable sections idx t) idx).map
            (fun s => { s with content := s.content ++ tablesSuffix ts }) := ih _
      _ = ((lookupAssoc sections idx).map
            (fun s => { s with content := s.content ++ (s2l "\n\n" ++ tableText t) })).map
            (fun s => { s with content := s.content ++ tablesSuffix ts }) := by rw [step]
      _ = (lookupAssoc sections idx).map
            (fun s => { s with content := s.content ++ tablesSuffix (t :: ts) }) := by
          cases lookupAssoc sections idx with
          | none => rfl
          | some s => simp [tablesSuffix, Option.map]

/-- Every entry after the table pass has the key of an original entry
and content extending that original content. -/
theorem mem_appendTables (sections : List (Int × DocSection)) (idx : Int)
    (tables : List (List (List Str))) (e : Int × DocSection)
    (h : e ∈ appendTables sections idx tables) :
    ∃ e0 ∈ sections, e.1 = e0.1 ∧ ∃ suffix, e.2.content = e0.2.content ++ suffix := by
  induction tables generalizing sections with
  | nil => exact ⟨e, h, rfl, [], by simp⟩
  | cons t ts ih =>
    obtain ⟨e1, he1, hkey, suffix, hcont⟩ := ih (appendOneTable sections idx t) h
    revert he1
    unfold appendOneTable
    cases hl : lookupAssoc sections idx with
    | none => exact fun he1 => ⟨e1, he1, hkey, suffix, hcont⟩
    | some s =>
      intro he1
      rcases mem_insertAssoc _ _ _ _ he1 with he | he
      · refine ⟨(idx, s), lookupAssoc_mem _ _ _ hl, ?_, ?_⟩
        · rw [hkey, he]
        · exact ⟨s2l "\n\n" ++ tableText t ++ suffix, by rw [hcont, he]; simp⟩
      · exact ⟨e1, he, hkey, suffix, hcont⟩

/-! Paragraph scan invariant lemmas. -/

/-- Joining a non-empty list whose head is non-empty is non-empty. -/
theorem intercalate_cons_ne_nil (sep x : Str) (xs : List Str) (hx : ¬(x = [])) :
    ¬(List.intercalate sep (x :: xs) = []) := by
  cases xs with
  | nil =>
    simpa [List.intercalate, List.intersperse] using hx
  | cons y ys =>
    have h : List.intercalate sep (x :: y :: ys)
        = x ++ sep ++ List.intercalate sep (y :: ys) := by
      simp [List.intercalate, List.intersperse]
    rw [h]
    intro hcontra
    rcases List.append_eq_nil.mp hcontra with ⟨h1, _⟩
    rcases List.append_eq_nil.mp h1 with ⟨h2, _⟩
    exact hx h2

/-- The integer index sequence grows by its next value. -/
theorem natRangeIdx_concat (n : Nat) :
    natRangeIdx (n + 1) = natRangeIdx n ++ [Int.ofNat (n + 1)] := by
  unfold natRangeIdx
  rw [List.range'_concat]
  simp [Nat.add_comm]

/-- Closing the current section stores only entries under index 0 or a
heading index, all with non-empty content. -/
theorem closeCurrent_entries (st : PState) (hinv : PInv st)
    (e : Int × DocSection) (h : e ∈ closeCurrent st) :
    (e.1 = 0 ∨ e.1 ∈ st.structure_.map HeadingEntry.index) ∧ ¬(e.2.content = []) := by
  obtain ⟨_, _, _, hcur, hsec, hcont⟩ := hinv
  unfold closeCurrent at h
  by_cases hc : st.current.content = []
  · rw [if_pos hc] at h
    exact hsec e h
  · rw [if_neg hc] at h
    rcases mem_insertAssoc _ _ _ _ h with he | he
    · subst he
      refine ⟨hcur, ?_⟩
      cases hcc : st.current.content with
      | nil => exact absurd hcc hc
      | cons t ts =>
        have ht : ¬(t = []) := hcont t (by rw [hcc]; exact List.mem_cons_self t ts)
        simpa [hcc] using intercalate_cons_ne_nil (s2l "\n") t ts ht
    · exact hsec e he

/-- One paragraph step preserves the scan invariant. -/
theorem paraStep_inv (st : PState) (p : Str × Str) (hinv : PInv st) :
    PInv (paraStep st p) := by
  obtain ⟨hidx, hmap, hcuridx, hcur, hsec, hcont⟩ := hinv
  unfold paraStep
  by_cases hblank : strip p.2 = []
  · rw [if_pos hblank]
    exact ⟨hidx, hmap, hcuridx, hcur, hsec, hcont⟩
  · rw [if_neg hblank]
    by_cases hhead : (containsSub (s2l "Heading") p.1 : Bool) = true
    · simp only [hhead, if_true]
      constructor
      · simp [hidx]
      · constructor
        · simp only [List.map_append, List.length_append, List.map_cons, List.map_nil,
            List.length_cons, List.length_nil]
          rw [hmap]
          have := natRangeIdx_concat st.structure_.length
          simpa [hidx] using this.symm
        · refine ⟨rfl, ?_, ?_, ?_⟩
          · right
            simp [hidx]
          · intro e he
            have base := closeCurrent_entries st
              ⟨hidx, hmap, hcuridx, hcur, hsec, hcont⟩ e he
            refine ⟨?_, base.2⟩
            rcases base.1 with h0 | hm
            · exact Or.inl h0
            · right
              simp only [List.map_append, List.map_cons, List.map_nil]
              exact List.mem_append_left _ hm
          · intro t ht
            exact absurd ht (List.not_mem_nil t)
    · simp only [hhead, if_false]
      refine ⟨hidx, hmap, hcuridx, hcur, hsec, ?_⟩
      intro t ht
      rcases List.mem_append.mp ht with ht2 | ht2
      · exact hcont t ht2
      · rw [List.mem_singleton.mp ht2]
        exact hblank

/-- The whole paragraph fold preserves the scan invariant. -/
theorem foldl_paraStep_inv (paras : List (Str × Str)) (st : PState) (hinv : PInv st) :
    PInv (paras.foldl paraStep st) := by
  induction paras generalizing st with
  | nil => exact hinv
  | cons p rest ih => exact ih _ (paraStep_inv st p hinv)

/-- The initial scan state satisfies the invariant. -/
theorem initPState_inv : PInv initPState := by
  refine ⟨rfl, rfl, rfl, Or.inl rfl, ?_, ?_⟩
  · intro e he
    simp [initPState] at he
  · intro t ht
    simp [initPState] at ht

/-- After the full paragraph scan: the heading indices are exactly
1..n in order, and every stored section sits under index 0 or a
heading index with non-empty content. -/
theorem processParagraphs_inv (paras : List (Str × Str)) :
    (processParagraphs paras).section_index
        = Int.ofNat (processParagraphs paras).structure_.length
  ∧ (processParagraphs paras).structure_.map HeadingEntry.index
        = natRangeIdx (processParagraphs paras).structure_.length
  ∧ ∀ e ∈ (processParagraphs paras).sections,
      (e.1 = 0 ∨ e.1 ∈ (processParagraphs paras).structure_.map HeadingEntry.index)
      ∧ ¬(e.2.content = []) := by
  have hinv := foldl_paraStep_inv paras initPState initPState_inv
  obtain ⟨hidx, hmap, hcuridx, hcur, hsec, hcont⟩ := hinv
  refine ⟨hidx, hmap, ?_⟩
  intro e he
  exact closeCurrent_entries _ ⟨hidx, hmap, hcuridx, hcur, hsec, hcont⟩ e he

/-! Key-set characterization of the paragraph scan against the
reference accumulation `sectionBodies`. -/

/-- Every entry of the reference accumulation carries an index at
least the starting index. -/
theorem sectionBodiesAux_fst_ge (paras : List (Str × Str)) (i : Int) (acc : List Str) :
    ∀ e ∈ sectionBodiesAux i acc paras, i ≤ e.1 := by
  induction paras generalizing i acc with
  | nil =>
    intro e he
    simp only [sectionBodiesAux, List.mem_singleton] at he
    rw [he]
  | cons p rest ih =>
    intro e he
    by_cases h1 : strip p.2 = []
    · simp only [sectionBodiesAux, h1, if_true] at he
      exact ih i acc e he
    · by_cases h2 : containsSub (s2l "Heading") p.1 = true
      · simp [sectionBodiesAux, h1, h2] at he
        rcases he with he | he
        · rw [he]
        · have := ih (i + 1) [] e he
          omega
      · simp [sectionBodiesAux, h1, h2] at he
        exact ih i (acc ++ [strip p.2]) e he

/-- The indices of the reference accumulation are pairwise distinct. -/
theorem sectionBodiesAux_nodup (paras : List (Str × Str)) (i : Int) (acc : List Str) :
    ((sectionBodiesAux i acc paras).map Prod.fst).Nodup := by
  induction paras generalizing i acc with
  | nil => simp [sectionBodiesAux]
  | cons p rest ih =>
    by_cases h1 : strip p.2 = []
    · simpa [sectionBodiesAux, h1] using ih i acc
    · by_cases h2 : containsSub (s2l "Heading") p.1 = true
      · have hunfold : sectionBodiesAux i acc (p :: rest)
            = (i, acc) :: sectionBodiesAux (i + 1) [] rest := by
          simp [sectionBodiesAux, h1, h2]
        rw [hunfold, List.map_cons, List.nodup_cons]
        refine ⟨?_, ih (i + 1) []⟩
        intro hmem
        obtain ⟨e, he, hfst⟩ := List.mem_map.mp hmem
        have hge := sectionBodiesAux_fst_ge rest (i + 1) [] e he
        have hi : e.1 = i := hfst
        omega
      · simpa [sectionBodiesAux, h1, h2] using ih i (acc ++ [strip p.2])

/-- A key of a filtered association list comes from a member that
satisfies the filter. -/
theorem mem_fst_filter_exists {α : Type} (p : Int × α → Bool) (l : List (Int × α)) (k : Int)
    (h : k ∈ (l.filter p).map Prod.fst) : ∃ v, (k, v) ∈ l ∧ p (k, v) = true := by
  obtain ⟨e, he, hfst⟩ := List.mem_map.mp h
  obtain ⟨k2, v⟩ := e
  have hk : k2 = k := hfst
  subst hk
  exact ⟨v, List.mem_of_mem_filter he, List.of_mem_filter he⟩

/-- In a list with pairwise distinct keys, a key determines its value. -/
theorem nodup_keys_mem_unique {κ α : Type} (l : List (κ × α))
    (hnd : (l.map Prod.fst).Nodup) (k : κ) (v v2 : α)
    (h1 : (k, v) ∈ l) (h2 : (k, v2) ∈ l) : v = v2 := by
  induction l with
  | nil => simp at h1
  | cons hd tl ih =>
    simp only [List.map_cons, List.nodup_cons] at hnd
    rcases List.mem_cons.mp h1 with e1 | e1
    · rcases List.mem_cons.mp h2 with e2 | e2
      · rw [← e1] at e2
        injection e2 with _ hv
        exact hv.symm
      · exfalso
        apply hnd.1
        have hk : hd.1 = k := by rw [← e1]
        rw [hk]
        exact List.mem_map_of_mem Prod.fst e2
    · rcases List.mem_cons.mp h2 with e2 | e2
      · exfalso
        apply hnd.1
        have hk : hd.1 = k := by rw [← e2]
        rw [hk]
        exact List.mem_map_of_mem Prod.fst e1
      · exact ih hnd.2 e1 e2

/-- A key whose unique entry has an empty value is not a key of the
non-empty-value filter of the list. -/
theorem lookupAssoc_nil_not_mem_filter (l : List (Int × List Str)) (k : Int)
    (hnd : (l.map Prod.fst).Nodup) (hl : lookupAssoc l k = some []) :
    ¬(k ∈ ((l.filter (fun e => ¬(e.2 = []))).map Prod.fst)) := by
  intro hmem
  obtain ⟨v, hv, hp⟩ := mem_fst_filter_exists _ l k hmem
  have hkv : (k, ([] : List Str)) ∈ l := lookupAssoc_mem l k [] hl
  have hveq : v = [] := nodup_keys_mem_unique l hnd k v [] hv hkv
  rw [hveq] at hp
  simp at hp

/-- Closing the current section appends its index to the key list
exactly when it accumulated content, provided all stored keys are
below the current index. -/
theorem closeCurrent_keys (st : PState)
    (hfresh : ∀ k ∈ st.sections.map Prod.fst, k < st.current.index) :
    (closeCurrent st).map Prod.fst
      = st.sections.map Prod.fst
        ++ (if ¬(st.current.content = []) then [st.current.index] else []) := by
  unfold closeCurrent
  by_cases hc : st.current.content = []
  · simp [hc]
  · have hnot : ¬(st.current.index ∈ st.sections.map Prod.fst) := by
      intro hmem
      exact absurd (hfresh _ hmem) (lt_irrefl _)
    rw [if_neg hc, insertAssoc_append _ _ _ hnot]
    simp [hc]

/-- The paragraph fold, followed by the final close, stores exactly
the sections whose accumulated body (per the reference accumulation
started from the current state) is non-empty, after the keys already
stored. -/
theorem foldl_paraStep_keys (paras : List (Str × Str)) (st : PState)
    (hcur : st.current.index = st.section_index)
    (hfresh : ∀ k ∈ st.sections.map Prod.fst, k < st.current.index) :
    (closeCurrent (paras.foldl paraStep st)).map Prod.fst
      = st.sections.map Prod.fst
        ++ ((sectionBodiesAux st.current.index st.current.content paras).filter
            (fun e => ¬(e.2 = []))).map Prod.fst := by
  induction paras generalizing st with
  | nil =>
    rw [List.foldl_nil, closeCurrent_keys st hfresh]
    by_cases hc : st.current.content = []
    · simp [sectionBodiesAux, hc]
    · simp [sectionBodiesAux, hc]
  | cons p rest ih =>
    rw [List.foldl_cons]
    by_cases h1 : strip p.2 = []
    · have hstep : paraStep st p = st := by
        unfold paraStep
        rw [if_pos h1]
      have hspec : sectionBodiesAux st.current.index st.current.content (p :: rest)
          = sectionBodiesAux st.current.index st.current.content rest := by
        simp [sectionBodiesAux, h1]
      rw [hstep, hspec]
      exact ih st hcur hfresh
    · by_cases h2 : containsSub (s2l "Heading") p.1 = true
      · have hA : (paraStep st p).sections = closeCurrent st := by
          simp [paraStep, h1, h2]
        have hB : (paraStep st p).current.index = st.current.index + 1 := by
          simp [paraStep, h1, h2, hcur]
        have hC : (paraStep st p).current.content = [] := by
          simp [paraStep, h1, h2]
        have hD : (paraStep st p).current.index = (paraStep st p).section_index := by
          simp [paraStep, h1, h2]
        have hfresh2 : ∀ k ∈ (paraStep st p).sections.map Prod.fst,
            k < (paraStep st p).current.index := by
          intro k hk
          rw [hA, closeCurrent_keys st hfresh] at hk
          rw [hB]
          rcases List.mem_append.mp hk with hk2 | hk2
          · have := hfresh k hk2
            omega
          · by_cases hc : st.current.content = []
            · simp [hc] at hk2
            · simp [hc] at hk2
              omega
        have hrec := ih (paraStep st p) hD hfresh2
        rw [hA, hB, hC] at hrec
        rw [hrec, closeCurrent_keys st hfresh]
        have hspec : sectionBodiesAux st.current.index st.current.content (p :: rest)
            = (st.current.index, st.current.content)
              :: sectionBodiesAux (st.current.index + 1) [] rest := by
          simp [sectionBodiesAux, h1, h2]
        rw [hspec]
        by_cases hc : st.current.content = []
        · simp [List.filter_cons, hc]
        · simp [List.filter_cons, hc]
      · have hproj1 : (paraStep st p).sections = st.sections := by
          simp [paraStep, h1, h2]
        have hproj2 : (paraStep st p).current.index = st.current.index := by
          simp [paraStep, h1, h2]
        have hproj3 : (paraStep st p).current.content
            = st.current.content ++ [strip p.2] := by
          simp [paraStep, h1, h2]
        have hproj4 : (paraStep st p).section_index = st.section_index := by
          simp [paraStep, h1, h2]
        have hcur2 : (paraStep st p).current.index = (paraStep st p).section_index := by
          rw [hproj2, hproj4]
          exact hcur
        have hfresh2 : ∀ k ∈ (paraStep st p).sections.map Prod.fst,
            k < (paraStep st p).current.index := by
          intro k hk
          rw [hproj1] at hk
          rw [hproj2]
          exact hfresh k hk
        have hrec := ih (paraStep st p) hcur2 hfresh2
        rw [hproj1, hproj2, hproj3] at hrec
        have hspec : sectionBodiesAux st.current.index st.current.content (p :: rest)
            = sectionBodiesAux st.current.index (st.current.content ++ [strip p.2]) rest := by
          simp [sectionBodiesAux, h1, h2]
        rw [hspec]
        exact hrec

/-- The keys of the scanned sections mapping are exactly the indices
of the reference accumulation entries with non-empty body, in order. -/
theorem processParagraphs_keys (paras : List (Str × Str)) :
    (processParagraphs paras).sections.map Prod.fst
      = ((sectionBodies paras).filter (fun e => ¬(e.2 = []))).map Prod.fst := by
  have h := foldl_paraStep_keys paras initPState rfl
    (by intro k hk; simp [initPState] at hk)
  simpa [processParagraphs, sectionBodies, initPState] using h

/-! Schema generator lemmas. -/

/-- The parameter fold of the schema generator: starting from any
accumulator whose keys avoid the remaining parameter names, it appends
one property per non-self parameter, in order, and appends to the
required list exactly the names of the non-self parameters with no
default and a non-Optional annotation, in order. -/
theorem foldl_schemaStep (descrs : List (Str × Str)) (params : List Param)
    (props0 : List (Str × ParamSchema)) (req0 : List Str)
    (h1 : ∀ p ∈ params, ¬(p.name ∈ props0.map Prod.fst))
    (h2 : (params.map Param.name).Nodup) :
    (params.foldl (schemaStep descrs) (props0, req0)).1.map Prod.fst
        = props0.map Prod.fst ++ (params.filter (fun p => !isSelf p)).map Param.name
  ∧ (params.foldl (schemaStep descrs) (props0, req0)).2
        = req0 ++ (params.filter (fun p => !isSelf p && isRequiredParam p)).map Param.name := by
  induction params generalizing props0 req0 with
  | nil => simp
  | cons p rest ih =>
    have h2tail : (rest.map Param.name).Nodup := by
      simp only [List.map_cons, List.nodup_cons] at h2
      exact h2.2
    have hpnotin : ¬(p.name ∈ rest.map Param.name) := by
      simp only [List.map_cons, List.nodup_cons] at h2
      exact h2.1
    by_cases hself : p.name = s2l "self"
    · have hs : isSelf p = true := by simp [isSelf, hself]
      have hstep : schemaStep descrs (props0, req0) p = (props0, req0) := by
        unfold schemaStep
        rw [if_pos hself]
      rw [List.foldl_cons, hstep]
      obtain ⟨ihA, ihB⟩ :=
        ih props0 req0 (fun q hq => h1 q (List.mem_cons_of_mem _ hq)) h2tail
      constructor
      · rw [ihA]
        simp [List.filter_cons, hs]
      · rw [ihB]
        simp [List.filter_cons, hs]
    · have hs : isSelf p = false := by simp [isSelf, hself]
      have hfresh : ¬(p.name ∈ props0.map Prod.fst) := h1 p (List.mem_cons_self p rest)
      have hstep1 : (schemaStep descrs (props0, req0) p).1.map Prod.fst
          = props0.map Prod.fst ++ [p.name] := by
        unfold schemaStep
        rw [if_neg hself]
        simp [insertAssoc_append _ _ _ hfresh]
      have hstep2 : (schemaStep descrs (props0, req0) p).2
          = req0 ++ (if isRequiredParam p = true then [p.name] else []) := by
        unfold schemaStep
        rw [if_neg hself]
        by_cases hreq : (¬(p.hasDefault = true) ∧ ¬(_is_optional p.ann = true))
        · have hr : isRequiredParam p = true := by
            simp only [isRequiredParam, Bool.and_eq_true, Bool.not_eq_true']
            exact ⟨Bool.not_eq_true _ ▸ hreq.1, Bool.not_eq_true _ ▸ hreq.2⟩
          simp [hreq, hr]
        · have hr : isRequiredParam p = false := by
            simp only [isRequiredParam]
            rcases not_and_or.mp hreq with h | h
            · simp only [not_not, Bool.not_eq_true] at h
              simp [h]
            · simp only [not_not, Bool.not_eq_true] at h
              simp [h]
          simp [hreq, hr]
          intro hd
          rcases not_and_or.mp hreq with h | h
          · rw [not_not, hd] at h
            exact absurd h (by simp)
          · exact not_not.mp h
      have h1tail : ∀ q ∈ rest,
          ¬(q.name ∈ (schemaStep descrs (props0, req0) p).1.map Prod.fst) := by
        intro q hq hmem
        rw [hstep1] at hmem
        rcases List.mem_append.mp hmem with hm | hm
        · exact h1 q (List.mem_cons_of_mem _ hq) hm
        · rw [List.mem_singleton] at hm
          exact hpnotin (hm ▸ List.mem_map_of_mem Param.name hq)
      obtain ⟨ihA, ihB⟩ :=
        ih (schemaStep descrs (props0, req0) p).1 (schemaStep descrs (props0, req0) p).2
          h1tail h2tail
      have heta : ((schemaStep descrs (props0, req0) p).1,
          (schemaStep descrs (props0, req0) p).2) = schemaStep descrs (props0, req0) p := rfl
      rw [heta] at ihA ihB
      rw [List.foldl_cons]
      constructor
      · rw [ihA, hstep1]
        simp [List.filter_cons, hs]
      · rw [ihB, hstep2]
        by_cases hr : isRequiredParam p = true
        · simp [List.filter_cons, hs, hr]
        · simp only [Bool.not_eq_true] at hr
          simp [List.filter_cons, hs, hr]

/-! Conversation loop lemmas. -/

/-- Dispatching a call whose arguments decode as JSON always yields a
tool-result message carrying the request id and function name. -/
theorem dispatchOne_ok (tool_map : List (Str × ToolImpl)) (tc : ToolCall)
    (h : (loads tc.args).isSome = true) :
    ∃ c, dispatchOne tool_map tc = Except.ok (Msg.tool tc.id tc.name c) := by
  obtain ⟨v, hv⟩ := Option.isSome_iff_exists.mp h
  cases hl : lookupAssoc tool_map tc.name with
  | none =>
    refine ⟨dumpsJVal (.obj
      [(s2l "error", .str (s2l "Function " ++ tc.name ++ s2l " not found"))]), ?_⟩
    simp [dispatchOne, hv, hl]
  | some impl =>
    cases hr : impl v with
    | ok ret =>
      refine ⟨pyRetContent ret, ?_⟩
      simp [dispatchOne, hv, hl, hr]
    | error e =>
      refine ⟨dumpsJVal (.obj [(s2l "error", .str (execErrorMsg tc.name e.1 e.2))]), ?_⟩
      simp [dispatchOne, hv, hl, hr]

/-- When every requested call has decodable arguments, the round
produces exactly one tool-result message per request, carrying the
request ids in request order. -/
theorem processToolCalls_ids (tool_map : List (Str × ToolImpl)) (calls : List ToolCall)
    (h : ∀ tc ∈ calls, (loads tc.args).isSome = true) :
    ∃ msgs, processToolCalls tool_map calls = Except.ok msgs
      ∧ msgs.map msgToolId = calls.map (fun tc => some tc.id) := by
  induction calls with
  | nil => exact ⟨[], rfl, rfl⟩
  | cons tc rest ih =>
    obtain ⟨c, hc⟩ := dispatchOne_ok tool_map tc (h tc (List.mem_cons_self tc rest))
    obtain ⟨msgs, hm, hmap⟩ := ih (fun x hx => h x (List.mem_cons_of_mem _ hx))
    refine ⟨Msg.tool tc.id tc.name c :: msgs, ?_, ?_⟩
    · unfold processToolCalls
      rw [hc, hm]
      rfl
    · simp [msgToolId, hmap]

/-- The loop performs at most as many round-trips as it has fuel, and
under a stub that always requests decodable tool calls it always hands
back a string result without raising. -/
theorem runLoop_bounded (stub : List Msg → Choice) (tool_map : List (Str × ToolImpl))
    (retIsStr : Bool)
    (h : ∀ msgs, (stub msgs).finish_reason = s2l "tool_calls"
      ∧ ¬((stub msgs).tool_calls = [])
      ∧ ∀ tc ∈ (stub msgs).tool_calls, (loads tc.args).isSome = true)
    (fuel : Nat) (messages : List Msg) (last : Option Choice) :
    (runLoop stub tool_map retIsStr fuel messages last).2 ≤ fuel
    ∧ ∃ s, (runLoop stub tool_map retIsStr fuel messages last).1
        = Except.ok (PyValue.str s) := by
  induction fuel generalizing messages last with
  | zero => exact ⟨Nat.le_refl 0, _, rfl⟩
  | succ n ih =>
    obtain ⟨hfin, hne, hargs⟩ := h messages
    have hnotstop : ¬((stub messages).finish_reason = s2l "stop") := by
      rw [hfin]
      decide
    obtain ⟨msgs, hm, _⟩ := processToolCalls_ids tool_map (stub messages).tool_calls hargs
    have hcond : ((stub messages).finish_reason = s2l "tool_calls"
        ∧ ¬((stub messages).tool_calls = [])) := ⟨hfin, hne⟩
    unfold runLoop
    rw [if_neg hnotstop, if_pos hcond, hm]
    obtain ⟨hle, s, hs⟩ := ih
      (messages ++ Msg.assistant (stub messages).content (stub messages).tool_calls :: msgs)
      (some (stub messages))
    exact ⟨by simpa using Nat.add_le_add_right hle 1, s, hs⟩

/-! Claim theorems. -/

/-- Claim C1. The claim states that `get_section_by_heading` never
raises, in particular not when the single matching heading had no body
paragraphs. The code contradicts this (and the stated RetrievalMiss
policy of the specification): on a document whose only paragraph is a
heading with no body, the keyword matches exactly one heading entry,
the sections mapping has no entry for it, and the direct subscript
`sections[idx]` raises `KeyError`. This theorem evaluates the code at
that failing input: the call raises (modelled as `none`) instead of
returning a string. -/
theorem C1_single_match_no_content_raises :
    get_section_by_heading
      (some (extract_document_structure
        [Block.para (s2l "Heading 1") (s2l "Lonely")]).toDocData)
      (s2l "lonely") = none := by rfl

/-- Claim C2 counterexample. In a document where a table occurs, in
document order, while section 1 is the open section (between the body
of heading A and heading B), the table text is appended to section 2
(the last section of the whole document), not to section 1: the claim
that each table is appended to the section most recently open at the
point where the table occurs is false at this input. -/
theorem C2_counterexample :
    ((extract_document_structure
      [Block.para (s2l "Heading 1") (s2l "A"), Block.para (s2l "Normal") (s2l "a"),
       Block.table [[s2l "r1c1", s2l "r1c2"]],
       Block.para (s2l "Heading 1") (s2l "B"), Block.para (s2l "Normal") (s2l "b")]).sections.map
        (fun e => (e.1, containsSub (s2l "[TABLE]") e.2.content)))
      = [(1, false), (2, true)] := by rfl

/-- Claim C2 (amended): the index builder appends every table text, in
table order, to the final section of the whole document (the one under
the last assigned section index), and only when that index has a
stored section; all other sections are untouched and tables are never
given their own index. -/
theorem C2_tables_append_last (blocks : List Block) :
    ((extract_document_structure blocks).sections.map Prod.fst
        = (processParagraphs (paraBlocks blocks)).sections.map Prod.fst)
  ∧ (∀ k : Int, ¬(k = (processParagraphs (paraBlocks blocks)).section_index) →
      lookupAssoc (extract_document_structure blocks).sections k
        = lookupAssoc (processParagraphs (paraBlocks blocks)).sections k)
  ∧ lookupAssoc (extract_document_structure blocks).sections
        (processParagraphs (paraBlocks blocks)).section_index
      = (lookupAssoc (processParagraphs (paraBlocks blocks)).sections
          (processParagraphs (paraBlocks blocks)).section_index).map
          (fun s => { s with content := s.content ++ tablesSuffix (tableBlocks blocks) }) := by
  refine ⟨?_, ?_, ?_⟩
  · exact appendTables_keys _ _ _
  · intro k hk
    exact appendTables_lookup_ne _ _ _ _ hk
  · exact appendTables_lookup_self _ _ _

/-- Witness for C2 at a concrete two-heading document with one table:
section 1 is not the final section and is untouched by the table pass. -/
theorem C2_witness :
    lookupAssoc (extract_document_structure
      [Block.para (s2l "Heading 1") (s2l "A"), Block.para (s2l "Normal") (s2l "a"),
       Block.table [[s2l "x"]],
       Block.para (s2l "Heading 1") (s2l "B"), Block.para (s2l "Normal") (s2l "b")]).sections 1
      = lookupAssoc (processParagraphs (paraBlocks
      [Block.para (s2l "Heading 1") (s2l "A"), Block.para (s2l "Normal") (s2l "a"),
       Block.table [[s2l "x"]],
       Block.para (s2l "Heading 1") (s2l "B"), Block.para (s2l "Normal") (s2l "b")])).sections 1 :=
  (C2_tables_append_last
    [Block.para (s2l "Heading 1") (s2l "A"), Block.para (s2l "Normal") (s2l "a"),
     Block.table [[s2l "x"]],
     Block.para (s2l "Heading 1") (s2l "B"), Block.para (s2l "Normal") (s2l "b")]).2.1
    1 (by decide)

/-- Claim C3 counterexample. On a document whose only paragraph is body
text with no heading, the sections mapping has the key 0 (the implicit
Introduction section) while the structure list is empty, so not every
key of the sections mapping is the index of a heading entry. -/
theorem C3_counterexample :
    (extract_document_structure [Block.para (s2l "Normal") (s2l "x")]).structure_ = []
  ∧ (extract_document_structure [Block.para (s2l "Normal") (s2l "x")]).sections.map Prod.fst
      = [0] := ⟨rfl, rfl⟩

/-- Claim C3 (amended): heading indices are assigned sequentially
starting at 1 in document order with no reuse or reordering; the keys
of the resulting sections mapping are exactly the indices whose
accumulated body content (per the reference accumulation
`sectionBodies`) is non-empty; every key is either 0 (the implicit
Introduction section holding body text before the first heading) or
the index of a heading entry, and its stored content is non-empty; and
a heading entry whose accumulated body content is empty has no
sections entry (misses are reported, never synthesized, also after the
table pass). -/
theorem C3_sections_invariant (blocks : List Block) :
    ((extract_document_structure blocks).structure_.map HeadingEntry.index
        = natRangeIdx (extract_document_structure blocks).structure_.length)
  ∧ ((extract_document_structure blocks).sections.map Prod.fst
        = (((sectionBodies (paraBlocks blocks)).filter
            (fun e => ¬(e.2 = []))).map Prod.fst))
  ∧ (∀ e ∈ (extract_document_structure blocks).sections,
      (e.1 = 0 ∨ e.1 ∈ (extract_document_structure blocks).structure_.map HeadingEntry.index)
      ∧ ¬(e.2.content = []))
  ∧ ∀ h ∈ (extract_document_structure blocks).structure_,
      lookupAssoc (sectionBodies (paraBlocks blocks)) h.index = some [] →
        ¬(h.index ∈ (extract_document_structure blocks).sections.map Prod.fst) := by
  obtain ⟨hidx, hmap, hsec⟩ := processParagraphs_inv (paraBlocks blocks)
  have hkeys : (extract_document_structure blocks).sections.map Prod.fst
      = (processParagraphs (paraBlocks blocks)).sections.map Prod.fst :=
    appendTables_keys (processParagraphs (paraBlocks blocks)).sections
      (processParagraphs (paraBlocks blocks)).section_index (tableBlocks blocks)
  refine ⟨hmap, ?_, ?_, ?_⟩
  · rw [hkeys]
    exact processParagraphs_keys (paraBlocks blocks)
  · intro e he
    have he2 : e ∈ appendTables (processParagraphs (paraBlocks blocks)).sections
        (processParagraphs (paraBlocks blocks)).section_index (tableBlocks blocks) := he
    obtain ⟨e0, he0, hkey, suffix, hcont⟩ := mem_appendTables _ _ _ e he2
    have base := hsec e0 he0
    refine ⟨?_, ?_⟩
    · rw [hkey]
      exact base.1
    · rw [hcont]
      intro hc
      rcases List.append_eq_nil.mp hc with ⟨h1, _⟩
      exact base.2 h1
  · intro h hh hlook hmem
    rw [hkeys, processParagraphs_keys (paraBlocks blocks)] at hmem
    exact lookupAssoc_nil_not_mem_filter (sectionBodies (paraBlocks blocks)) h.index
      (sectionBodiesAux_nodup (paraBlocks blocks) 0 []) hlook hmem

/-- Witness for C3 at a concrete document with one bodiless heading:
the heading entry with index 1 is in the structure list, its
accumulated body content is empty, and index 1 has no sections entry. -/
theorem C3_witness :
    ¬((({ index := 1, heading := s2l "Lonely", level := 1 } : HeadingEntry)).index
      ∈ (extract_document_structure
          [Block.para (s2l "Heading 1") (s2l "Lonely")]).sections.map Prod.fst) :=
  (C3_sections_invariant [Block.para (s2l "Heading 1") (s2l "Lonely")]).2.2.2
    { index := 1, heading := s2l "Lonely", level := 1 } (by decide) (by decide)

/-- Claim C4: for a callable with distinct parameter names, the
generated schema requires exactly the non-self parameters with no
default value and a non-Optional annotation (in declaration order),
its properties mapping has exactly one entry per non-self parameter,
and a parameter is in the required list iff it has no default and its
annotation is not Optional. -/
theorem C4_schema_required_properties (f : PyFunc)
    (hnd : (f.params.map Param.name).Nodup) :
    (function_to_tool_schema f).properties.length
        = (f.params.filter (fun p => !isSelf p)).length
  ∧ (function_to_tool_schema f).required
        = (f.params.filter (fun p => !isSelf p && isRequiredParam p)).map Param.name
  ∧ ∀ p ∈ f.params, isSelf p = false →
      ((p.name ∈ (function_to_tool_schema f).required) ↔
        (¬(p.hasDefault = true) ∧ ¬(_is_optional p.ann = true))) := by
  have hprops : (function_to_tool_schema f).properties
      = (f.params.foldl (schemaStep (parseArgsSection (splitOnChar '\n' f.doc)))
          ([], [])).1 := rfl
  have hreqdef : (function_to_tool_schema f).required
      = (f.params.foldl (schemaStep (parseArgsSection (splitOnChar '\n' f.doc)))
          ([], [])).2 := rfl
  have hkeys := foldl_schemaStep (parseArgsSection (splitOnChar '\n' f.doc)) f.params [] []
    (by intro p hp hmem; simp at hmem) hnd
  have hreq : (function_to_tool_schema f).required
      = (f.params.filter (fun p => !isSelf p && isRequiredParam p)).map Param.name := by
    rw [hreqdef, hkeys.2]
    simp
  refine ⟨?_, hreq, ?_⟩
  · have h1 : (function_to_tool_schema f).properties.map Prod.fst
        = (f.params.filter (fun p => !isSelf p)).map Param.name := by
      rw [hprops, hkeys.1]
      simp
    calc (function_to_tool_schema f).properties.length
        = ((function_to_tool_schema f).properties.map Prod.fst).length := by
          rw [List.length_map]
      _ = ((f.params.filter (fun p => !isSelf p)).map Param.name).length := by rw [h1]
      _ = (f.params.filter (fun p => !isSelf p)).length := by rw [List.length_map]
  · intro p hp hps
    rw [hreq]
    constructor
    · intro hmem
      obtain ⟨q, hq, hqname⟩ := List.mem_map.mp hmem
      have hqmem : q ∈ f.params := List.mem_of_mem_filter hq
      have hqpred := List.of_mem_filter hq
      have hqp : q = p := List.inj_on_of_nodup_map hnd hqmem hp hqname
      subst hqp
      simp only [Bool.and_eq_true] at hqpred
      have h2 := hqpred.2
      simp only [isRequiredParam, Bool.and_eq_true, Bool.not_eq_true'] at h2
      exact ⟨by simp [h2.1], by simp [h2.2]⟩
    · intro hpr
      apply List.mem_map_of_mem Param.name
      apply List.mem_filter_of_mem hp
      simp only [Bool.and_eq_true]
      refine ⟨by simp [hps], ?_⟩
      simp only [isRequiredParam, Bool.and_eq_true, Bool.not_eq_true']
      exact ⟨by simpa using hpr.1, by simpa using hpr.2⟩

/-- Witness for C4 at a concrete two-parameter callable (one required
integer, one Optional string with a default). -/
theorem C4_witness :
    (function_to_tool_schema { name := s2l "tool", doc := s2l "Does things", params := [{ name := s2l "q", ann := Ann.int, hasDefault := false }, { name := s2l "opt", ann := Ann.union [Ann.str, Ann.noneT], hasDefault := true }] }).required
      = ([({ name := s2l "q", ann := Ann.int, hasDefault := false } : Param), { name := s2l "opt", ann := Ann.union [Ann.str, Ann.noneT], hasDefault := true }].filter (fun p => !isSelf p && isRequiredParam p)).map Param.name :=
  (C4_schema_required_properties _ (by decide)).2.1

/-- Claim C5: the lenient JSON parser satisfies the four reference
cases: a json-fenced object parses to that object, an object preceded
by conversational preamble parses to that object, the empty string
fails, and text containing no brace or bracket fails. Every
non-exceptional return is a parsed JSON value by construction, since
the result type of the embedding is an optional `JVal`. -/
theorem C5_parser_reference_cases :
    parse_json_response (s2l "```json\n\x7b\"a\":1\x7d\n```")
        = some (JVal.obj [(s2l "a", JVal.num 1)])
  ∧ parse_json_response (s2l "Sure, here: \x7b\"a\":1\x7d")
        = some (JVal.obj [(s2l "a", JVal.num 1)])
  ∧ parse_json_response [] = none
  ∧ parse_json_response (s2l "not json at all") = none :=
  ⟨rfl, rfl, rfl, rfl⟩

/-- Claim C6 counterexample: a stub that answers every round with a
tool-calls finish signal and no message content drives the loop to the
20 round bound, and the loop then returns the empty string, not
non-empty content as the claim states. -/
theorem C6_counterexample :
    run_with_tools
      (fun _ => { finish_reason := s2l "tool_calls", content := none, tool_calls := [{ id := s2l "c", name := s2l "f", args := s2l "\x7b\x7d" }] })
      (s2l "p") [] true
    = (Except.ok (PyValue.str []), 20) := by rfl

/-- Claim C6 (amended): for every model stub that answers every round
with a tool-calls finish signal carrying at least one requested call
whose arguments string decodes as JSON, the conversation loop performs
at most 20 round-trips and then terminates, returning string content
(the last available message content, or the empty string when that
content is absent) rather than looping forever or raising. -/
theorem C6_bounded_loop (stub : List Msg → Choice) (prompt : Str)
    (tool_map : List (Str × ToolImpl)) (retIsStr : Bool)
    (h : ∀ msgs, (stub msgs).finish_reason = s2l "tool_calls"
      ∧ ¬((stub msgs).tool_calls = [])
      ∧ ∀ tc ∈ (stub msgs).tool_calls, (loads tc.args).isSome = true) :
    (run_with_tools stub prompt tool_map retIsStr).2 ≤ 20
  ∧ ∃ s, (run_with_tools stub prompt tool_map retIsStr).1 = Except.ok (PyValue.str s) :=
  runLoop_bounded stub tool_map retIsStr h 20 [Msg.user prompt] none

/-- Witness for C6 at a concrete always-tool-calls stub. -/
theorem C6_witness :
    (run_with_tools (fun _ => ({ finish_reason := s2l "tool_calls", content := some (s2l "x"), tool_calls := [{ id := s2l "c", name := s2l "f", args := s2l "\x7b\x7d" }] } : Choice)) (s2l "p") [] true).2 ≤ 20
  ∧ ∃ s, (run_with_tools (fun _ => ({ finish_reason := s2l "tool_calls", content := some (s2l "x"), tool_calls := [{ id := s2l "c", name := s2l "f", args := s2l "\x7b\x7d" }] } : Choice)) (s2l "p") [] true).1 = Except.ok (PyValue.str s) :=
  C6_bounded_loop _ _ _ _ (fun _ => ⟨rfl, by decide, by decide⟩)

/-- Helper: one loop round with a stop finish signal returns the stop
branch result after exactly one round-trip. -/
theorem runLoop_stop (stub : List Msg → Choice) (tool_map : List (Str × ToolImpl))
    (retIsStr : Bool) (fuel : Nat) (msgs : List Msg) (last : Option Choice)
    (hstop : (stub msgs).finish_reason = s2l "stop") :
    runLoop stub tool_map retIsStr (fuel + 1) msgs last
      = (Except.ok (stopResult retIsStr (stub msgs).content), 1) := by
  simp only [runLoop]
  rw [if_pos hstop]

/-- Claim C7 counterexample. A requested tool call whose function name
is not registered but whose arguments string is not valid JSON makes
the dispatch raise (the unprotected `json.loads` runs before the name
lookup), so no tool result is produced for it: the claim is false for
this request. -/
theorem C7_counterexample :
    dispatchOne [] { id := s2l "c1", name := s2l "nope", args := s2l "not json" }
      = Except.error () := by rfl

/-- Claim C7 (amended): for every requested tool call whose arguments
string decodes as JSON and whose function name is not in the
registered map, the round appends exactly one well-formed tool-result
message (no exception), carrying the request correlation id and, as
content, the JSON payload stating the function was not found. -/
theorem C7_not_found_result (tool_map : List (Str × ToolImpl)) (tc : ToolCall)
    (hargs : (loads tc.args).isSome = true)
    (hname : lookupAssoc tool_map tc.name = none) :
    processToolCalls tool_map [tc]
      = Except.ok [Msg.tool tc.id tc.name
          (dumpsJVal (JVal.obj [(s2l "error",
            JVal.str (s2l "Function " ++ tc.name ++ s2l " not found"))]))] := by
  obtain ⟨v, hv⟩ := Option.isSome_iff_exists.mp hargs
  simp [processToolCalls, dispatchOne, hv, hname, Except.map]

/-- Witness for C7 at a concrete unregistered call with decodable
arguments. -/
theorem C7_witness :
    processToolCalls [] [{ id := s2l "c1", name := s2l "nope", args := s2l "\x7b\x7d" }]
      = Except.ok [Msg.tool (s2l "c1") (s2l "nope") (dumpsJVal (JVal.obj [(s2l "error", JVal.str (s2l "Function " ++ s2l "nope" ++ s2l " not found"))]))] :=
  C7_not_found_result [] _ (by decide) rfl

/-- Claim C8: when the first response carries a stop finish signal and
the caller requested non-string decoding, the driver attempts the
lenient JSON parse on the non-empty message content and, on parse
failure, returns the raw message text after one round-trip instead of
raising or failing the call. -/
theorem C8_stop_parse_fallback (stub : List Msg → Choice) (prompt : Str)
    (tool_map : List (Str × ToolImpl)) (c : Str)
    (hstop : (stub [Msg.user prompt]).finish_reason = s2l "stop")
    (hc : (stub [Msg.user prompt]).content = some c)
    (hne : ¬(c = []))
    (hfail : parse_json_response c = none) :
    run_with_tools stub prompt tool_map false = (Except.ok (PyValue.str c), 1) := by
  have h2 : run_with_tools stub prompt tool_map false
      = (Except.ok (stopResult false (stub [Msg.user prompt]).content), 1) :=
    runLoop_stop stub tool_map false 19 [Msg.user prompt] none hstop
  rw [h2, hc]
  simp [stopResult, hne, hfail]

/-- Witness for C8 at a concrete stub answering stop with
unparseable content. -/
theorem C8_witness :
    run_with_tools (fun _ => ({ finish_reason := s2l "stop", content := some (s2l "not json at all"), tool_calls := [] } : Choice)) (s2l "p") [] false
      = (Except.ok (PyValue.str (s2l "not json at all")), 1) :=
  C8_stop_parse_fallback _ _ _ _ rfl rfl (by decide) (by rfl)

/-- Claim C9 counterexample. A round with two requested calls where the
second call carries an undecodable arguments string raises out of the
loop, so neither request id ends up in exactly one appended
tool-result message: the claim is false for this request list. -/
theorem C9_counterexample :
    processToolCalls []
      [{ id := s2l "a", name := s2l "f", args := s2l "\x7b\x7d" },
       { id := s2l "b", name := s2l "g", args := s2l "oops" }]
      = Except.error () := by rfl

/-- Claim C9 (amended): within one round, provided every requested
call has an arguments string that decodes as JSON, exactly one
tool-result message is appended per requested call, each carrying that
request id, in exactly the order the requests were made. -/
theorem C9_results_in_order (tool_map : List (Str × ToolImpl)) (calls : List ToolCall)
    (h : ∀ tc ∈ calls, (loads tc.args).isSome = true) :
    ∃ msgs, processToolCalls tool_map calls = Except.ok msgs
      ∧ msgs.map msgToolId = calls.map (fun tc => some tc.id) :=
  processToolCalls_ids tool_map calls h

/-- Witness for C9 at a concrete two-request round. -/
theorem C9_witness :
    ∃ msgs, processToolCalls [] [{ id := s2l "a", name := s2l "f", args := s2l "\x7b\x7d" }, { id := s2l "b", name := s2l "g", args := s2l "\x7b\x7d" }] = Except.ok msgs
      ∧ msgs.map msgToolId = [({ id := s2l "a", name := s2l "f", args := s2l "\x7b\x7d" } : ToolCall), { id := s2l "b", name := s2l "g", args := s2l "\x7b\x7d" }].map (fun tc => some tc.id) :=
  C9_results_in_order [] _ (by decide)

/-- Claim C10: when the process-wide current-document slot is absent,
each of the three retrieval operations returns the fixed error string
for every argument value, rather than raising. -/
theorem C10_no_document_loaded (i : Int) (kw : Str) (idxs : List Int) :
    get_section_by_index none i = s2l "Error: No document is currently loaded"
  ∧ get_section_by_heading none kw
      = some (s2l "Error: No document is currently loaded")
  ∧ get_multiple_sections none idxs = s2l "Error: No document is currently loaded" :=
  ⟨rfl, rfl, rfl⟩
